import Mathlib

/-!
Verification of the agent-framework orchestration engine: the message
merge reducer, workflow construction, the continuation policies and
the sequential and broadcast run loops, embedded as executable Lean
definitions, with theorems settling the specification's claims.
-/

/-- A conversation message: an optional identifier plus its content.
These are the two fields of the framework's message records that the
merge reducer, the policies and the scenarios inspect. -/
structure Message where
  id : Option String
  content : String
  deriving DecidableEq, Repr

/-- Python truthiness of the id test in the reducer: an id counts as
present when it is neither missing nor the empty string (the source
guards on `if not message.id`). -/
def hasId (m : Message) : Bool :=
  match m.id with
  | none => false
  | some s => !(s == "")

/-- First loop of the reducer: every incoming message lacking an id
receives a fresh one from the supply `gen`; `k` counts how many fresh
ids were already drawn. -/
def assignIds (gen : Nat → String) : Nat → List Message → List Message
  | _, [] => []
  | k, m :: ms =>
    if hasId m then m :: assignIds gen k ms
    else { m with id := some (gen k) } :: assignIds gen (k + 1) ms

/-- Inner loop of the reducer: scan the accumulated list for the first
entry whose id equals the incoming message's id and replace it in
place; if none matches, append the incoming message (the for-else in
the source). -/
def mergeOne : List Message → Message → List Message
  | [], m => [m]
  | e :: es, m => if e.id = m.id then m :: es else e :: mergeOne es m

/-- The custom message reducer of the framework: assign fresh ids to
id-less incoming messages, then fold each incoming message into a copy
of the existing list, replacing on id match and appending otherwise.
The id supply `gen` stands for the successive uuid4 draws of one
reducer application. -/
def reduce_messages (gen : Nat → String) (left right : List Message) : List Message :=
  (assignIds gen 0 right).foldl mergeOne left

/-- The ids of a history, in order. -/
def msgIds (l : List Message) : List (Option String) :=
  l.map Message.id

/-- Agent roles of the configuration record. -/
inductive AgentRole
  | coordinator
  | executor
  | critic
  | researcher
  | custom
  deriving DecidableEq, Repr

/-- Agent configuration; the fields the engine itself inspects. Tool
lists, temperature and custom functions are opaque to every claim and
are omitted. -/
structure AgentConfig where
  name : String
  role : AgentRole
  system_message : String
  model : String
  deriving DecidableEq, Repr

/-- Python dict assignment: update the value in place when the key is
already present (position kept), append a new binding otherwise. -/
def dictInsert (d : List (String × AgentConfig)) (k : String) (v : AgentConfig) :
    List (String × AgentConfig) :=
  match d with
  | [] => [(k, v)]
  | (k', v') :: rest => if k' = k then (k', v) :: rest else (k', v') :: dictInsert rest k v

/-- The workflow constructor's agent table: an insertion-ordered dict
built left to right from the configuration list, with no validation of
any kind. -/
def buildAgents (cfgs : List AgentConfig) : List (String × AgentConfig) :=
  cfgs.foldl (fun d cfg => dictInsert d cfg.name cfg) []

/-- Dict lookup by key. -/
def lookupName (d : List (String × AgentConfig)) (k : String) : Option AgentConfig :=
  (d.find? (fun p => p.1 == k)).map Prod.snd

/-- The parts of the compiled state graph that the workflow's graph
builder determines: the added nodes, the unconditional edges, the node
that received conditional continuation edges (the inner `none` records
the source passing Python None as that node), and the entry point. -/
structure BuiltGraph where
  nodes : List String
  edges : List (String × String)
  condSource : Option (Option String)
  entry : Option String
  deriving DecidableEq, Repr

/-- Consecutive edges of the sequential pattern. -/
def seqEdges (names : List String) : List (String × String) :=
  names.zip names.tail

/-- Broadcast pattern: every node gets an edge to every other node, in
dict iteration order. -/
def broadcastEdges (names : List String) : List (String × String) :=
  names.flatMap (fun n => (names.filter (fun o => o != n)).map (fun o => (n, o)))

/-- The multi-agent graph builder on the agent names: the sequential
pattern wires a chain with conditional continuation edges out of the
last node; the broadcast pattern wires the full mesh and never wires
the continuation policy; any other pattern adds no nodes and no edges
at all. The entry point is always the first name (an index error at
runtime when the name list is empty). -/
def buildGraph (pattern : String) (names : List String) : BuiltGraph :=
  if pattern = "sequential" then
    { nodes := names, edges := seqEdges names,
      condSource := some names.getLast?, entry := names.head? }
  else if pattern = "broadcast" then
    { nodes := names, edges := broadcastEdges names,
      condSource := none, entry := names.head? }
  else
    { nodes := [], edges := [], condSource := none, entry := names.head? }

/-- Metadata key read by both continuation policies. -/
def maxTurnsKey : String := "max_turns"

/-- Continuation policy of a single agent: the message count is
strictly below the `max_turns` metadata entry, defaulting to 10. -/
def singleShouldContinue (md : String → Option Nat) (msgs : List Message) : Bool :=
  decide (msgs.length < (md maxTurnsKey).getD 10)

/-- Continuation policy of the multi-agent workflow: the message count
is strictly below the `max_turns` metadata entry, defaulting to 20. -/
def multiShouldContinue (md : String → Option Nat) (msgs : List Message) : Bool :=
  decide (msgs.length < (md maxTurnsKey).getD 20)

/-- The continuation policy as the specification words it: length
strictly below `max_turns` and no message content equal to a
configured completion marker. Stated from the spec's words for
comparison with the implemented policies, which have no marker
facility. -/
def specShouldContinue (markers : List String) (defMax : Nat)
    (md : String → Option Nat) (msgs : List Message) : Bool :=
  decide (msgs.length < (md maxTurnsKey).getD defMax) &&
    msgs.all (fun m => markers.all (fun mk => !(m.content == mk)))

/-- Shared state: the message history plus the run metadata (the only
metadata entry the engine reads is the numeric `max_turns`). -/
structure AgentState where
  messages : List Message
  metadata : String → Option Nat

/-- Explicit-state-passing image of one agent process call: the value
the call returns together with the value the caller's state object
holds after the call. The source appends to the caller's message list
in place and returns the same dict, so the two components coincide. -/
structure ProcessResult where
  returned : AgentState
  inputAfter : AgentState

/-- The single agent's process operation: invoke the turn capability
on the current history, append its response to the state's message
list (an in-place append on the caller's list), and return the same
state object. -/
def SingleAgent.process (turn : List Message → Message) (s : AgentState) : ProcessResult :=
  let ms := s.messages ++ [turn s.messages]
  { returned := { messages := ms, metadata := s.metadata },
    inputAfter := { messages := ms, metadata := s.metadata } }

/-- Canonical fresh-id supply modelling the uuid4 draws of a run: the
n-th draw is a string of n + 1 copies of one letter, hence nonempty
and pairwise distinct. -/
def natId (n : Nat) : String :=
  String.mk (List.replicate (n + 1) 'a')

/-- Number of uuid draws one reducer application performs on a batch. -/
def stepCount (batch : List Message) : Nat :=
  (batch.filter (fun m => !(hasId m))).length

/-- One graph node step as the framework executes it: the node returns
the input history with the turn's response appended, and the messages
channel folds that return through the reducer. `c` counts the uuid
draws made so far in the run. -/
def nodeStep (turn : List Message → Message) (c : Nat) (h : List Message) :
    Nat × List Message :=
  let batch := h ++ [turn h]
  (c + stepCount batch, reduce_messages (fun k => natId (c + k)) h batch)

/-- One sequential round: the chain of unconditional edges visits
every agent once, in declaration order, with no policy check in
between. -/
def seqRound (ts : List (List Message → Message)) (c : Nat) (h : List Message) :
    Nat × List Message :=
  match ts with
  | [] => (c, h)
  | t :: ts' =>
    let p := nodeStep t c h
    seqRound ts' p.1 p.2

/-- The sequential run loop: run a full round, then evaluate the
continuation policy at the conditional edge out of the last node;
true routes back to the first agent, false ends the run. `fuel`
bounds the number of rounds (the graph library's recursion limit). -/
def runSeqLoop (ts : List (List Message → Message)) (md : String → Option Nat) :
    Nat → Nat → List Message → List Message
  | 0, _, h => h
  | fuel + 1, c, h =>
    let p := seqRound ts c h
    if multiShouldContinue md p.2 then runSeqLoop ts md fuel p.1 p.2 else p.2

/-- A run of the sequential workflow: seed the state with one id-less
user message (folded through the reducer, which assigns the first
fresh id), then iterate rounds until the policy stops the run. -/
def runSeq (ts : List (List Message → Message)) (md : String → Option Nat)
    (seed : String) (fuel : Nat) : List Message :=
  runSeqLoop ts md fuel 1 (reduce_messages natId [] [{ id := none, content := seed }])

/-- The broadcast graph of two agents has exactly the edges X to Y and
Y to X, so execution alternates between the two nodes with no
continuation check; `steps` counts node invocations until the graph
library's recursion limit interrupts the run. -/
def runB2 (t1 t2 : List Message → Message) : Nat → Nat → List Message → List Message
  | 0, _, h => h
  | steps + 1, c, h =>
    let p := nodeStep t1 c h
    runB2 t2 t1 steps p.1 p.2

/-- A run of the two-agent broadcast workflow. -/
def runBroadcast (tX tY : List Message → Message) (seed : String) (steps : Nat) :
    List Message :=
  runB2 tX tY steps 1 (reduce_messages natId [] [{ id := none, content := seed }])

/-- A turn capability that returns one fresh id-less message with a
fixed content: the scenarios' name-echoing agents. -/
def echoTurn (name : String) : List Message → Message :=
  fun _ => { id := none, content := name }

/-- Run metadata carrying only a `max_turns` entry. -/
def metaOf (n : Nat) : String → Option Nat :=
  fun k => if k = maxTurnsKey then some n else none

/-- Well-formed run history: ids are pairwise distinct and all drawn
from the first `c` uuid draws. -/
def GoodHist (c : Nat) (h : List Message) : Prop :=
  (msgIds h).Nodup ∧ ∀ m ∈ h, ∃ j < c, m.id = some (natId j)

/-- The shared states a run reaches: the seeded state (the id-less
seed folded through the reducer) and every state obtained from a
reachable one by a node step (the node returns the history with its
response appended and the messages channel folds that return through
the reducer). The id supply of each application is arbitrary. -/
inductive Reachable : List Message → Prop
  | seed (gen : Nat → String) (content : String) :
      Reachable (reduce_messages gen [] [{ id := none, content := content }])
  | step (gen : Nat → String) (turn : List Message → Message) (s : List Message) :
      Reachable s → Reachable (reduce_messages gen s (s ++ [turn s]))

/-- The incoming message that the merge claim says lands at an
existing entry's position: the first incoming message whose id
matches it. -/
def replBy (incoming : List Message) (e : Message) : Message :=
  (incoming.find? (fun m => m.id == e.id)).getD e

/-- The merge result as the claim describes it: every existing entry
replaced in place by its id-matching incoming message, followed by the
incoming messages matching no existing entry, in batch order. Stated
from the claim's words for comparison with the implemented reducer. -/
def mergeSpec (existing incoming : List Message) : List Message :=
  existing.map (replBy incoming) ++
    incoming.filter (fun m => decide (¬ m.id ∈ msgIds existing))


/-! Structural lemmas for the id projection and the reducer's inner loop. -/

@[simp]
theorem msgIds_nil : msgIds [] = [] := rfl

@[simp]
theorem msgIds_cons (m : Message) (l : List Message) :
    msgIds (m :: l) = m.id :: msgIds l := rfl

@[simp]
theorem msgIds_append (l1 l2 : List Message) :
    msgIds (l1 ++ l2) = msgIds l1 ++ msgIds l2 := by
  simp [msgIds]

@[simp]
theorem msgIds_length (l : List Message) : (msgIds l).length = l.length := by
  simp [msgIds]

@[simp]
theorem mergeOne_nil (m : Message) : mergeOne [] m = [m] := rfl

theorem mergeOne_cons_eq {e m : Message} (es : List Message) (h : e.id = m.id) :
    mergeOne (e :: es) m = m :: es := by
  simp [mergeOne, h]

theorem mergeOne_cons_ne {e m : Message} (es : List Message) (h : ¬ e.id = m.id) :
    mergeOne (e :: es) m = e :: mergeOne es m := by
  simp [mergeOne, h]

theorem mergeOne_of_not_mem (m : Message) :
    ∀ acc, m.id ∉ msgIds acc → mergeOne acc m = acc ++ [m] := by
  intro acc
  induction acc with
  | nil => intro _; rfl
  | cons e es ih =>
    intro hmem
    simp only [msgIds_cons, List.mem_cons] at hmem
    push_neg at hmem
    rw [mergeOne_cons_ne es (fun h => hmem.1 h.symm), ih hmem.2, List.cons_append]

theorem msgIds_mergeOne_of_mem (m : Message) :
    ∀ acc, m.id ∈ msgIds acc → msgIds (mergeOne acc m) = msgIds acc := by
  intro acc
  induction acc with
  | nil => intro h; simp at h
  | cons e es ih =>
    intro hmem
    by_cases he : e.id = m.id
    · rw [mergeOne_cons_eq es he]
      simp [he]
    · rw [mergeOne_cons_ne es he]
      simp only [msgIds_cons, List.mem_cons] at hmem
      rcases hmem with h | h
      · exact absurd h.symm he
      · simp [ih h]

theorem mem_msgIds_mergeOne {x : Option String} (m : Message) :
    ∀ acc, x ∈ msgIds (mergeOne acc m) → x ∈ msgIds acc ∨ x = m.id := by
  intro acc
  induction acc with
  | nil =>
    intro h
    simp at h
    right
    exact h
  | cons e es ih =>
    by_cases he : e.id = m.id
    · rw [mergeOne_cons_eq es he]
      intro h
      simp only [msgIds_cons, List.mem_cons] at h
      rcases h with h | h
      · right; exact h
      · left; simp [h]
    · rw [mergeOne_cons_ne es he]
      intro h
      simp only [msgIds_cons, List.mem_cons] at h
      rcases h with h | h
      · left; simp [h]
      · rcases ih h with h' | h'
        · left; simp [h']
        · right; exact h'

theorem nodup_mergeOne (m : Message) :
    ∀ acc, (msgIds acc).Nodup → (msgIds (mergeOne acc m)).Nodup := by
  intro acc
  induction acc with
  | nil => intro _; simp
  | cons e es ih =>
    intro hnd
    simp only [msgIds_cons, List.nodup_cons] at hnd
    by_cases he : e.id = m.id
    · rw [mergeOne_cons_eq es he]
      simp only [msgIds_cons, List.nodup_cons]
      exact ⟨he ▸ hnd.1, hnd.2⟩
    · rw [mergeOne_cons_ne es he]
      simp only [msgIds_cons, List.nodup_cons]
      refine ⟨fun hmem => ?_, ih hnd.2⟩
      rcases mem_msgIds_mergeOne m es hmem with h | h
      · exact hnd.1 h
      · exact he h

theorem nodup_foldl_mergeOne :
    ∀ (rs acc : List Message), (msgIds acc).Nodup →
      (msgIds (List.foldl mergeOne acc rs)).Nodup := by
  intro rs
  induction rs with
  | nil => intro acc h; exact h
  | cons r rs' ih =>
    intro acc h
    exact ih (mergeOne acc r) (nodup_mergeOne r acc h)

theorem mergeOne_first_occurrence (e m : Message) (he : e.id = m.id) :
    ∀ pre post, m.id ∉ msgIds pre →
      mergeOne (pre ++ e :: post) m = pre ++ m :: post := by
  intro pre
  induction pre with
  | nil =>
    intro post _
    rw [List.nil_append, mergeOne_cons_eq post he, List.nil_append]
  | cons p pre' ih =>
    intro post hmem
    simp only [msgIds_cons, List.mem_cons] at hmem
    push_neg at hmem
    rw [List.cons_append, mergeOne_cons_ne _ (fun h => hmem.1 h.symm), ih post hmem.2,
      List.cons_append]

/-! Lemmas about folding a whole batch through the inner loop. -/

theorem foldl_mergeOne_replace :
    ∀ (L done K : List Message), msgIds K = msgIds L →
      (msgIds (done ++ K)).Nodup →
      List.foldl mergeOne (done ++ K) L = done ++ L := by
  intro L
  induction L with
  | nil =>
    intro done K hids _
    have hlen : K.length = 0 := by
      have := congrArg List.length hids
      simpa using this
    simp [List.eq_nil_of_length_eq_zero hlen]
  | cons l L' ih =>
    intro done K hids hnd
    match K with
    | [] => simp at hids
    | k :: K' =>
      simp only [msgIds_cons] at hids
      have hkl : k.id = l.id := (List.cons.injEq _ _ _ _).mp hids |>.1
      have hK' : msgIds K' = msgIds L' := (List.cons.injEq _ _ _ _).mp hids |>.2
      have hlpre : l.id ∉ msgIds done := by
        intro hmem
        have hnd' : (msgIds done ++ k.id :: msgIds K').Nodup := by
          simpa using hnd
        have hdisj := List.disjoint_of_nodup_append hnd'
        exact hdisj (hkl ▸ hmem) (List.mem_cons_self _ _)
      have hke : k.id = l.id := hkl
      have step : mergeOne (done ++ k :: K') l = done ++ l :: K' :=
        mergeOne_first_occurrence k l hke done K' hlpre
      rw [List.foldl_cons, step]
      have hnd2 : (msgIds ((done ++ [l]) ++ K')).Nodup := by
        have h1 : msgIds ((done ++ [l]) ++ K') = msgIds done ++ l.id :: msgIds K' := by
          simp
        have h2 : msgIds (done ++ k :: K') = msgIds done ++ k.id :: msgIds K' := by
          simp
        rw [h1, ← hkl]
        rw [h2] at hnd
        exact hnd
      have := ih (done ++ [l]) K' hK' hnd2
      simpa using this

theorem foldl_mergeOne_self (h : List Message) (hnd : (msgIds h).Nodup) :
    List.foldl mergeOne h h = h := by
  have := foldl_mergeOne_replace h [] h rfl (by simpa using hnd)
  simpa using this

theorem foldl_mergeOne_append :
    ∀ (rs acc : List Message), (∀ m ∈ rs, m.id ∉ msgIds acc) → (msgIds rs).Nodup →
      List.foldl mergeOne acc rs = acc ++ rs := by
  intro rs
  induction rs with
  | nil => intro acc _ _; simp
  | cons r rs' ih =>
    intro acc hfresh hnd
    rw [List.foldl_cons, mergeOne_of_not_mem r acc (hfresh r (List.mem_cons_self _ _))]
    simp only [msgIds_cons, List.nodup_cons] at hnd
    have h1 : ∀ m ∈ rs', m.id ∉ msgIds (acc ++ [r]) := by
      intro m hm hmem
      simp only [msgIds_append, msgIds_cons, msgIds_nil, List.mem_append,
        List.mem_singleton] at hmem
      rcases hmem with h | h
      · exact hfresh m (List.mem_cons_of_mem _ hm) h
      · exact hnd.1 (h ▸ List.mem_map_of_mem Message.id hm)
    have := ih (acc ++ [r]) h1 hnd.2
    simpa using this

theorem msgIds_foldl_mergeOne :
    ∀ (rs acc : List Message), ∃ ex,
      msgIds (List.foldl mergeOne acc rs) = msgIds acc ++ ex := by
  intro rs
  induction rs with
  | nil => intro acc; exact ⟨[], by simp⟩
  | cons r rs' ih =>
    intro acc
    by_cases hmem : r.id ∈ msgIds acc
    · obtain ⟨ex, hex⟩ := ih (mergeOne acc r)
      refine ⟨ex, ?_⟩
      rw [List.foldl_cons, hex, msgIds_mergeOne_of_mem r acc hmem]
    · obtain ⟨ex, hex⟩ := ih (mergeOne acc r)
      refine ⟨r.id :: ex, ?_⟩
      rw [List.foldl_cons, hex, mergeOne_of_not_mem r acc hmem]
      simp

theorem mem_mergeOne (m x : Message) :
    ∀ acc, x ∈ mergeOne acc m → x ∈ acc ∨ x = m := by
  intro acc
  induction acc with
  | nil =>
    intro h
    simp at h
    right
    exact h
  | cons e es ih =>
    by_cases he : e.id = m.id
    · rw [mergeOne_cons_eq es he]
      intro h
      rcases List.mem_cons.mp h with h | h
      · right; exact h
      · left; exact List.mem_cons_of_mem _ h
    · rw [mergeOne_cons_ne es he]
      intro h
      rcases List.mem_cons.mp h with h | h
      · left; exact h ▸ List.mem_cons_self _ _
      · rcases ih h with h' | h'
        · left; exact List.mem_cons_of_mem _ h'
        · right; exact h'

theorem mem_foldl_mergeOne (x : Message) :
    ∀ (rs acc : List Message), x ∈ List.foldl mergeOne acc rs → x ∈ acc ∨ x ∈ rs := by
  intro rs
  induction rs with
  | nil =>
    intro acc h
    left
    exact h
  | cons r rs' ih =>
    intro acc h
    rw [List.foldl_cons] at h
    rcases ih (mergeOne acc r) h with h' | h'
    · rcases mem_mergeOne r x acc h' with h'' | h''
      · left; exact h''
      · right; exact h'' ▸ List.mem_cons_self _ _
    · right; exact List.mem_cons_of_mem _ h'

/-! Lemmas about id assignment and the canonical fresh-id supply. -/

theorem assignIds_of_hasId (gen : Nat → String) :
    ∀ (rs : List Message) (k : Nat), (∀ m ∈ rs, hasId m = true) →
      assignIds gen k rs = rs := by
  intro rs
  induction rs with
  | nil => intro k _; rfl
  | cons r rs' ih =>
    intro k hall
    rw [assignIds, if_pos (hall r (List.mem_cons_self _ _)),
      ih k (fun m hm => hall m (List.mem_cons_of_mem _ hm))]

theorem assignIds_append_left (gen : Nat → String) :
    ∀ (xs ys : List Message) (k : Nat), (∀ m ∈ xs, hasId m = true) →
      assignIds gen k (xs ++ ys) = xs ++ assignIds gen k ys := by
  intro xs
  induction xs with
  | nil => intro ys k _; rfl
  | cons x xs' ih =>
    intro ys k hall
    rw [List.cons_append, assignIds, if_pos (hall x (List.mem_cons_self _ _)),
      ih ys k (fun m hm => hall m (List.mem_cons_of_mem _ hm)), List.cons_append]

theorem natId_ne_empty (n : Nat) : natId n ≠ "" := by
  intro h
  have := congrArg String.data h
  simp [natId] at this

theorem natId_injective : Function.Injective natId := by
  intro a b h
  have := congrArg String.data h
  simp only [natId] at this
  have hlen := congrArg List.length this
  simpa using hlen

theorem hasId_of_some (m : Message) (s : String) (hid : m.id = some s) (hs : s ≠ "") :
    hasId m = true := by
  unfold hasId
  rw [hid]
  simpa using hs

theorem goodHist_hasId {c : Nat} {h : List Message} (hg : GoodHist c h) :
    ∀ m ∈ h, hasId m = true := by
  intro m hm
  obtain ⟨j, _, hid⟩ := hg.2 m hm
  exact hasId_of_some m (natId j) hid (natId_ne_empty j)

theorem goodHist_not_mem {c : Nat} {h : List Message} (hg : GoodHist c h) :
    some (natId c) ∉ msgIds h := by
  intro hmem
  obtain ⟨m, hm, hid⟩ := List.mem_map.mp hmem
  obtain ⟨j, hj, hid'⟩ := hg.2 m hm
  rw [hid'] at hid
  have : natId j = natId c := Option.some.inj hid
  exact absurd (natId_injective this) (Nat.ne_of_lt hj)

/-! The effect of one node step on a well-formed history. -/

theorem reduce_messages_left_append (gen : Nat → String) (h rs : List Message)
    (hnd : (msgIds h).Nodup) (hall : ∀ m ∈ h, hasId m = true) :
    reduce_messages gen h (h ++ rs) = reduce_messages gen h rs := by
  unfold reduce_messages
  rw [assignIds_append_left gen h rs 0 hall, List.foldl_append,
    foldl_mergeOne_self h hnd]

theorem nodeStep_eq (turn : List Message → Message) (c : Nat) (h : List Message)
    (hg : GoodHist c h) (hid : (turn h).id = none) :
    nodeStep turn c h =
      (c + 1, h ++ [{ id := some (natId c), content := (turn h).content }]) := by
  have hall : ∀ m ∈ h, hasId m = true := goodHist_hasId hg
  have hidle : hasId (turn h) = false := by unfold hasId; rw [hid]
  have hcount : stepCount (h ++ [turn h]) = 1 := by
    unfold stepCount
    rw [List.filter_append]
    have h1 : h.filter (fun m => !(hasId m)) = [] := by
      apply List.filter_eq_nil_iff.mpr
      intro m hm
      simp [hall m hm]
    rw [h1]
    simp [hidle]
  have hred : reduce_messages (fun k => natId (c + k)) h (h ++ [turn h]) =
      h ++ [{ id := some (natId c), content := (turn h).content }] := by
    rw [reduce_messages_left_append _ h _ hg.1 hall]
    unfold reduce_messages
    have hassign : assignIds (fun k => natId (c + k)) 0 [turn h] =
        [{ id := some (natId c), content := (turn h).content }] := by
      rw [assignIds, if_neg (by rw [hidle]; exact Bool.false_ne_true), assignIds]
      show [{ turn h with id := some (natId (c + 0)) }] = _
      cases hturn : turn h with
      | mk i ct =>
        rw [hturn] at hid
        simp at hid
        simp [hturn]
    rw [hassign, List.foldl_cons, List.foldl_nil,
      mergeOne_of_not_mem _ h (by exact fun hmem => goodHist_not_mem hg hmem)]
  show (c + stepCount (h ++ [turn h]),
      reduce_messages (fun k => natId (c + k)) h (h ++ [turn h])) = _
  rw [hcount, hred]

theorem goodHist_snoc (c : Nat) (h : List Message) (ct : String) (hg : GoodHist c h) :
    GoodHist (c + 1) (h ++ [{ id := some (natId c), content := ct }]) := by
  constructor
  · rw [msgIds_append]
    refine List.Nodup.append hg.1 (by simp) ?_
    intro x hx hy
    simp only [msgIds_cons, msgIds_nil, List.mem_singleton] at hy
    exact goodHist_not_mem hg (hy ▸ hx)
  · intro m hm
    rcases List.mem_append.mp hm with hm' | hm'
    · obtain ⟨j, hj, hid⟩ := hg.2 m hm'
      exact ⟨j, Nat.lt_succ_of_lt hj, hid⟩
    · simp only [List.mem_singleton] at hm'
      exact ⟨c, Nat.lt_succ_self c, by rw [hm']⟩

/-! The sequential round and run loop. -/

theorem multiShouldContinue_iff (md : String → Option Nat) (msgs : List Message) :
    multiShouldContinue md msgs = true ↔ msgs.length < (md maxTurnsKey).getD 20 := by
  simp [multiShouldContinue]

theorem seqRound_spec :
    ∀ (ts : List (List Message → Message)) (c : Nat) (h : List Message),
      GoodHist c h → (∀ t ∈ ts, ∀ h', (t h').id = none) →
      (seqRound ts c h).1 = c + ts.length ∧
        (seqRound ts c h).2.length = h.length + ts.length ∧
        GoodHist (c + ts.length) (seqRound ts c h).2 := by
  intro ts
  induction ts with
  | nil =>
    intro c h hg _
    exact ⟨by simp [seqRound], by simp [seqRound], by simpa [seqRound] using hg⟩
  | cons t ts' ih =>
    intro c h hg hall
    have hstep := nodeStep_eq t c h hg (hall t (List.mem_cons_self _ _) h)
    have hgood := goodHist_snoc c h (t h).content hg
    have hred : seqRound (t :: ts') c h =
        seqRound ts' (c + 1)
          (h ++ [{ id := some (natId c), content := (t h).content }]) := by
      show seqRound ts' (nodeStep t c h).1 (nodeStep t c h).2 = _
      rw [hstep]
    rw [hred]
    obtain ⟨h1, h2, h3⟩ :=
      ih (c + 1) _ hgood (fun t' ht' => hall t' (List.mem_cons_of_mem _ ht'))
    refine ⟨?_, ?_, ?_⟩
    · rw [h1, List.length_cons]
      omega
    · rw [h2]
      simp only [List.length_append, List.length_cons, List.length_nil]
      omega
    · have heq : c + (t :: ts').length = c + 1 + ts'.length := by
        rw [List.length_cons]
        omega
      rw [heq]
      exact h3

theorem runSeqLoop_spec :
    ∀ (fuel : Nat) (ts : List (List Message → Message)) (md : String → Option Nat)
      (c : Nat) (h : List Message),
      GoodHist c h → (∀ t ∈ ts, ∀ h', (t h').id = none) → ts ≠ [] →
      1 ≤ fuel → (md maxTurnsKey).getD 20 ≤ h.length + ts.length * fuel →
      ∃ k, 1 ≤ k ∧
        (runSeqLoop ts md fuel c h).length = h.length + ts.length * k ∧
        (md maxTurnsKey).getD 20 ≤ h.length + ts.length * k ∧
        (k = 1 ∨ h.length + ts.length * (k - 1) < (md maxTurnsKey).getD 20) := by
  intro fuel
  induction fuel with
  | zero => intro ts md c h _ _ _ hf _; exact absurd hf (by omega)
  | succ f ih =>
    intro ts md c h hg hall hne _ hbound
    obtain ⟨h1, h2, h3⟩ := seqRound_spec ts c h hg hall
    have hm : 1 ≤ ts.length := by
      cases ts with
      | nil => exact absurd rfl hne
      | cons a b => simp
    by_cases hcont : multiShouldContinue md (seqRound ts c h).2 = true
    · have hlt : h.length + ts.length < (md maxTurnsKey).getD 20 := by
        have := (multiShouldContinue_iff md (seqRound ts c h).2).mp hcont
        omega
      match f with
      | 0 =>
        exfalso
        have : ts.length * 1 = ts.length := by omega
        rw [this] at hbound
        omega
      | f' + 1 =>
        have hbound' : (md maxTurnsKey).getD 20 ≤
            (seqRound ts c h).2.length + ts.length * (f' + 1) := by
          rw [h2]
          have hms : ts.length * (f' + 1 + 1) = ts.length * (f' + 1) + ts.length :=
            Nat.mul_succ _ _
          rw [hms] at hbound
          omega
        obtain ⟨k', hk1, hk2, hk3, hk4⟩ :=
          ih ts md (seqRound ts c h).1 (seqRound ts c h).2
            (h1 ▸ h3) hall hne (by omega) hbound'
        refine ⟨k' + 1, by omega, ?_, ?_, ?_⟩
        · have : runSeqLoop ts md (f' + 1 + 1) c h =
              runSeqLoop ts md (f' + 1) (seqRound ts c h).1 (seqRound ts c h).2 := by
            show (if multiShouldContinue md (seqRound ts c h).2 then _ else _) = _
            rw [if_pos hcont]
          rw [this, hk2, h2, Nat.mul_succ]
          omega
        · rw [Nat.mul_succ]
          have := hk3
          rw [h2] at this
          omega
        · right
          have hsub : k' + 1 - 1 = k' := by omega
          rw [hsub]
          rcases hk4 with hk4 | hk4
          · rw [hk4]
            have : ts.length * 1 = ts.length := by omega
            rw [this]
            exact hlt
          · obtain ⟨j, rfl⟩ : ∃ j, k' = j + 1 := ⟨k' - 1, by omega⟩
            rw [h2] at hk4
            have hsub2 : j + 1 - 1 = j := by omega
            rw [hsub2] at hk4
            rw [Nat.mul_succ]
            omega
    · refine ⟨1, le_refl 1, ?_, ?_, Or.inl rfl⟩
      · have : runSeqLoop ts md (f + 1) c h = (seqRound ts c h).2 := by
          show (if multiShouldContinue md (seqRound ts c h).2 then _ else _) = _
          rw [if_neg hcont]
        rw [this, h2]
        omega
      · have := (multiShouldContinue_iff md (seqRound ts c h).2).not.mp hcont
        push_neg at this
        rw [h2] at this
        omega

/-! The two-agent broadcast loop never stops growing the history. -/

theorem runB2_length :
    ∀ (steps : Nat) (t1 t2 : List Message → Message) (c : Nat) (h : List Message),
      GoodHist c h → (∀ h', (t1 h').id = none) → (∀ h', (t2 h').id = none) →
      (runB2 t1 t2 steps c h).length = h.length + steps := by
  intro steps
  induction steps with
  | zero => intro t1 t2 c h _ _ _; rfl
  | succ s ih =>
    intro t1 t2 c h hg h1 h2
    have hstep := nodeStep_eq t1 c h hg (h1 h)
    have hred : runB2 t1 t2 (s + 1) c h =
        runB2 t2 t1 s (c + 1)
          (h ++ [{ id := some (natId c), content := (t1 h).content }]) := by
      show runB2 t2 t1 s (nodeStep t1 c h).1 (nodeStep t1 c h).2 = _
      rw [hstep]
    rw [hred, ih t2 t1 (c + 1) _ (goodHist_snoc c h (t1 h).content hg) h2 h1]
    simp only [List.length_append, List.length_cons, List.length_nil]
    omega

/-! A pointwise description of the reducer: replacement map plus appended tail. -/

theorem list_map_id_of {α : Type} (f : α → α) :
    ∀ l : List α, (∀ x ∈ l, f x = x) → l.map f = l := by
  intro l
  induction l with
  | nil => intro _; rfl
  | cons a l' ih =>
    intro hall
    rw [List.map_cons, hall a (List.mem_cons_self _ _),
      ih (fun x hx => hall x (List.mem_cons_of_mem _ hx))]

theorem replBy_nil (e : Message) : replBy [] e = e := rfl

theorem replBy_cons_eq {m e : Message} (rs : List Message) (h : m.id = e.id) :
    replBy (m :: rs) e = m := by
  unfold replBy
  rw [List.find?_cons_of_pos rs (by simpa using h)]
  rfl

theorem replBy_cons_ne {m e : Message} (rs : List Message) (h : ¬ m.id = e.id) :
    replBy (m :: rs) e = replBy rs e := by
  unfold replBy
  rw [List.find?_cons_of_neg rs (by simpa using h)]

theorem replBy_not_mem {e : Message} (rs : List Message) (h : e.id ∉ msgIds rs) :
    replBy rs e = e := by
  unfold replBy
  have : rs.find? (fun m => m.id == e.id) = none := by
    rw [List.find?_eq_none]
    intro x hx hbeq
    exact h (by
      have : x.id = e.id := by simpa using hbeq
      exact this ▸ List.mem_map_of_mem Message.id hx)
  rw [this]
  rfl

theorem mergeOne_eq_map_of_mem (m : Message) :
    ∀ acc, (msgIds acc).Nodup → m.id ∈ msgIds acc →
      mergeOne acc m = acc.map (fun e => if e.id = m.id then m else e) := by
  intro acc
  induction acc with
  | nil => intro _ hmem; simp at hmem
  | cons e es ih =>
    intro hnd hmem
    simp only [msgIds_cons, List.nodup_cons] at hnd
    by_cases he : e.id = m.id
    · rw [mergeOne_cons_eq es he, List.map_cons, if_pos he]
      have htail : es.map (fun e => if e.id = m.id then m else e) = es := by
        apply list_map_id_of
        intro x hx
        rw [if_neg]
        intro hxid
        exact hnd.1 (he ▸ hxid ▸ List.mem_map_of_mem Message.id hx)
      rw [htail]
    · rw [mergeOne_cons_ne es he, List.map_cons, if_neg he]
      simp only [msgIds_cons, List.mem_cons] at hmem
      rcases hmem with h | h
      · exact absurd h.symm he
      · rw [ih hnd.2 h]

theorem msgIds_map_update (m : Message) (acc : List Message) :
    msgIds (acc.map (fun e => if e.id = m.id then m else e)) = msgIds acc := by
  unfold msgIds
  rw [List.map_map]
  apply List.map_congr_left
  intro e _
  by_cases he : e.id = m.id
  · simp [he]
  · simp [he]

theorem foldl_mergeOne_spec :
    ∀ (rs H : List Message), (msgIds H).Nodup → (msgIds rs).Nodup →
      List.foldl mergeOne H rs =
        H.map (replBy rs) ++ rs.filter (fun m => decide (¬ m.id ∈ msgIds H)) := by
  intro rs
  induction rs with
  | nil =>
    intro H _ _
    rw [List.foldl_nil, List.filter_nil, List.append_nil]
    exact (list_map_id_of _ H (fun x _ => replBy_nil x)).symm
  | cons m rs' ih =>
    intro H hH hrs
    simp only [msgIds_cons, List.nodup_cons] at hrs
    rw [List.foldl_cons]
    by_cases hmem : m.id ∈ msgIds H
    · rw [mergeOne_eq_map_of_mem m H hH hmem]
      have hnd2 : (msgIds (H.map (fun e => if e.id = m.id then m else e))).Nodup := by
        rw [msgIds_map_update]
        exact hH
      rw [ih _ hnd2 hrs.2]
      have hmap : (H.map (fun e => if e.id = m.id then m else e)).map (replBy rs') =
          H.map (replBy (m :: rs')) := by
        rw [List.map_map]
        apply List.map_congr_left
        intro e _
        show replBy rs' (if e.id = m.id then m else e) = replBy (m :: rs') e
        by_cases he : e.id = m.id
        · rw [if_pos he, replBy_not_mem rs' hrs.1, replBy_cons_eq rs' he.symm]
        · rw [if_neg he, replBy_cons_ne rs' (fun hh => he hh.symm)]
      have hfil : (m :: rs').filter (fun x => decide (¬ x.id ∈ msgIds H)) =
          rs'.filter (fun x => decide (¬ x.id ∈ msgIds H)) := by
        rw [List.filter_cons]
        simp [hmem]
      rw [hmap, msgIds_map_update, hfil]
    · rw [mergeOne_of_not_mem m H hmem]
      have hnd2 : (msgIds (H ++ [m])).Nodup := by
        simp only [msgIds_append, msgIds_cons, msgIds_nil]
        rw [List.nodup_append]
        refine ⟨hH, List.nodup_singleton _, ?_⟩
        intro x hx hmemx
        simp only [List.mem_singleton] at hmemx
        exact hmem (hmemx ▸ hx)
      rw [ih _ hnd2 hrs.2]
      have hmap2 : (H ++ [m]).map (replBy rs') =
          H.map (replBy (m :: rs')) ++ [m] := by
        rw [List.map_append]
        congr 1
        · apply List.map_congr_left
          intro e he
          have hne : ¬ m.id = e.id := fun hh =>
            hmem (hh ▸ List.mem_map_of_mem Message.id he)
          exact (replBy_cons_ne rs' hne).symm
        · rw [List.map_singleton, replBy_not_mem rs' hrs.1]
      have hfil2 : rs'.filter (fun x => decide (¬ x.id ∈ msgIds (H ++ [m]))) =
          rs'.filter (fun x => decide (¬ x.id ∈ msgIds H)) := by
        apply List.filter_congr
        intro x hx
        have hne : x.id ≠ m.id := fun hh =>
          hrs.1 (hh ▸ List.mem_map_of_mem Message.id hx)
        simp only [msgIds_append, msgIds_cons, msgIds_nil, List.mem_append,
          List.mem_singleton, decide_eq_decide]
        constructor
        · intro hcon hmm
          exact hcon (Or.inl hmm)
        · intro hcon hmm
          rcases hmm with hmm | hmm
          · exact hcon hmm
          · exact hne hmm
      have hfil3 : (m :: rs').filter (fun x => decide (¬ x.id ∈ msgIds H)) =
          m :: rs'.filter (fun x => decide (¬ x.id ∈ msgIds H)) := by
        rw [List.filter_cons]
        simp [hmem]
      rw [hmap2, hfil2, hfil3, List.append_assoc, List.singleton_append]

/-! Idempotence of re-merging a batch. -/

theorem foldl_mergeOne_fix (H L : List Message)
    (hnd : (msgIds L).Nodup) (hpre : ∃ ex, msgIds L = msgIds H ++ ex) :
    List.foldl mergeOne H L = L := by
  obtain ⟨ex, hex⟩ := hpre
  have hlenH : H.length ≤ L.length := by
    have := congrArg List.length hex
    simp only [msgIds_length, List.length_append] at this
    omega
  have hsplit : L.take H.length ++ L.drop H.length = L := List.take_append_drop _ _
  have hids_take : msgIds (L.take H.length) = msgIds H := by
    show (L.take H.length).map Message.id = msgIds H
    rw [List.map_take]
    show (msgIds L).take H.length = msgIds H
    rw [hex]
    have : H.length = (msgIds H).length := (msgIds_length H).symm
    rw [this, List.take_left]
  have hids_drop : msgIds (L.drop H.length) = ex := by
    show (L.drop H.length).map Message.id = ex
    rw [List.map_drop]
    show (msgIds L).drop H.length = ex
    rw [hex]
    have : H.length = (msgIds H).length := (msgIds_length H).symm
    rw [this, List.drop_left]
  have hnd_split : (msgIds (L.take H.length) ++ msgIds (L.drop H.length)).Nodup := by
    rw [← msgIds_append, hsplit]
    exact hnd
  have hparts := List.nodup_append.mp hnd_split
  conv_lhs => rw [← hsplit]
  rw [List.foldl_append]
  have hstep1 : List.foldl mergeOne H (L.take H.length) = L.take H.length := by
    have hHnd : (msgIds H).Nodup := hids_take ▸ hparts.1
    have := foldl_mergeOne_replace (L.take H.length) [] H hids_take.symm
      (by simpa using hHnd)
    simpa using this
  rw [hstep1]
  rw [foldl_mergeOne_append (L.drop H.length) (L.take H.length) ?fresh ?nd]
  · exact hsplit
  case fresh =>
    intro m hm hmem
    exact hparts.2.2 hmem (List.mem_map_of_mem Message.id hm)
  case nd => exact hparts.2.1

theorem reduce_messages_idem (g1 g2 : Nat → String) (H M : List Message)
    (hH1 : (msgIds H).Nodup) (hH2 : ∀ m ∈ H, hasId m = true)
    (hM : ∀ m ∈ M, hasId m = true) :
    reduce_messages g2 H (reduce_messages g1 H M) = reduce_messages g1 H M := by
  have hLfold : reduce_messages g1 H M = List.foldl mergeOne H M := by
    unfold reduce_messages
    rw [assignIds_of_hasId g1 M 0 hM]
  have hLhas : ∀ x ∈ reduce_messages g1 H M, hasId x = true := by
    intro x hx
    rw [hLfold] at hx
    rcases mem_foldl_mergeOne x M H hx with h | h
    · exact hH2 x h
    · exact hM x h
  have hLnd : (msgIds (reduce_messages g1 H M)).Nodup := by
    rw [hLfold]
    exact nodup_foldl_mergeOne M H hH1
  have hLpre : ∃ ex, msgIds (reduce_messages g1 H M) = msgIds H ++ ex := by
    rw [hLfold]
    exact msgIds_foldl_mergeOne M H
  show (assignIds g2 0 (reduce_messages g1 H M)).foldl mergeOne H = _
  rw [assignIds_of_hasId g2 _ 0 hLhas]
  exact foldl_mergeOne_fix H _ hLnd hLpre

/-! Within an incoming batch, the last occurrence of an id wins. -/

theorem filter_id_of_not_mem (i : String) (K : List Message)
    (h : some i ∉ msgIds K) :
    K.filter (fun x => decide (x.id = some i)) = [] := by
  rw [List.filter_eq_nil_iff]
  intro x hx
  simp only [decide_eq_true_eq]
  intro hxid
  exact h (hxid ▸ List.mem_map_of_mem Message.id hx)

theorem filter_id_mergeOne_eq (m : Message) (i : String) (him : m.id = some i) :
    ∀ K, (msgIds K).Nodup →
      (mergeOne K m).filter (fun x => decide (x.id = some i)) = [m] := by
  intro K
  induction K with
  | nil =>
    intro _
    rw [mergeOne_nil, List.filter_cons]
    simp [him]
  | cons k K' ih =>
    intro hnd
    simp only [msgIds_cons, List.nodup_cons] at hnd
    by_cases he : k.id = m.id
    · rw [mergeOne_cons_eq K' he, List.filter_cons]
      have : K'.filter (fun x => decide (x.id = some i)) = [] := by
        apply filter_id_of_not_mem
        intro hmem
        exact hnd.1 (by rw [he, him]; exact him ▸ hmem)
      simp [him, this]
    · rw [mergeOne_cons_ne K' he, List.filter_cons]
      have hk : ¬ k.id = some i := fun hh => he (hh.trans him.symm)
      rw [if_neg (by simp [hk])]
      exact ih hnd.2

theorem filter_id_mergeOne_ne (m : Message) (i : String) (him : ¬ m.id = some i) :
    ∀ K, (mergeOne K m).filter (fun x => decide (x.id = some i)) =
        K.filter (fun x => decide (x.id = some i)) := by
  intro K
  induction K with
  | nil =>
    rw [mergeOne_nil, List.filter_cons, List.filter_nil]
    simp [him]
  | cons k K' ih =>
    by_cases he : k.id = m.id
    · rw [mergeOne_cons_eq K' he, List.filter_cons, List.filter_cons]
      have hk : ¬ k.id = some i := fun hh => him (he ▸ hh)
      simp [him, hk]
    · rw [mergeOne_cons_ne K' he, List.filter_cons, List.filter_cons, ih]

theorem foldl_mergeOne_last_wins (i : String) (m : Message) :
    ∀ (rs ex : List Message), (msgIds ex).Nodup →
      (rs.filter (fun x => decide (x.id = some i))).getLast? = some m →
      (List.foldl mergeOne ex rs).filter (fun x => decide (x.id = some i)) = [m] := by
  intro rs
  induction rs using List.reverseRecOn with
  | nil =>
    intro ex _ hlast
    simp at hlast
  | append_singleton rs' x ih =>
    intro ex hnd hlast
    rw [List.foldl_append, List.foldl_cons, List.foldl_nil]
    rw [List.filter_append] at hlast
    by_cases hx : x.id = some i
    · have hfx : [x].filter (fun y => decide (y.id = some i)) = [x] := by simp [hx]
      rw [hfx, List.getLast?_concat] at hlast
      have hmx : m = x := by
        injection hlast with h
        exact h.symm
      rw [hmx]
      exact filter_id_mergeOne_eq x i hx _ (nodup_foldl_mergeOne rs' ex hnd)
    · have hfx : [x].filter (fun y => decide (y.id = some i)) = [] := by simp [hx]
      rw [hfx, List.append_nil] at hlast
      rw [filter_id_mergeOne_ne x i hx]
      exact ih ex hnd hlast

/-! Lemmas about the constructor's dict of agents. -/

theorem keys_dictInsert (d : List (String × AgentConfig)) (k : String) (v : AgentConfig) :
    (dictInsert d k v).map Prod.fst =
      if k ∈ d.map Prod.fst then d.map Prod.fst else d.map Prod.fst ++ [k] := by
  induction d with
  | nil => simp [dictInsert]
  | cons p rest ih =>
    obtain ⟨k', v'⟩ := p
    by_cases hk : k' = k
    · rw [dictInsert, if_pos hk]
      subst hk
      simp
    · rw [dictInsert, if_neg hk]
      by_cases hmem : k ∈ rest.map Prod.fst
      · rw [List.map_cons, ih, if_pos hmem, List.map_cons,
          if_pos (by simp [hmem])]
      · rw [List.map_cons, ih, if_neg hmem, List.map_cons,
          if_neg (by simp [hmem]; exact fun h => hk h.symm)]
        rfl

theorem nodup_keys_dictInsert (d : List (String × AgentConfig)) (k : String) (v : AgentConfig)
    (h : (d.map Prod.fst).Nodup) : ((dictInsert d k v).map Prod.fst).Nodup := by
  rw [keys_dictInsert]
  by_cases hmem : k ∈ d.map Prod.fst
  · rw [if_pos hmem]
    exact h
  · rw [if_neg hmem, List.nodup_append]
    refine ⟨h, List.nodup_singleton _, ?_⟩
    intro x hx hmemx
    simp only [List.mem_singleton] at hmemx
    exact hmem (hmemx ▸ hx)

theorem mem_keys_dictInsert (d : List (String × AgentConfig)) (k : String) (v : AgentConfig)
    (x : String) :
    x ∈ (dictInsert d k v).map Prod.fst ↔ x ∈ d.map Prod.fst ∨ x = k := by
  rw [keys_dictInsert]
  by_cases hmem : k ∈ d.map Prod.fst
  · rw [if_pos hmem]
    constructor
    · exact Or.inl
    · rintro (h | rfl)
      · exact h
      · exact hmem
  · rw [if_neg hmem]
    simp

theorem lookupName_dictInsert_self (d : List (String × AgentConfig)) (k : String)
    (v : AgentConfig) : lookupName (dictInsert d k v) k = some v := by
  induction d with
  | nil => simp [dictInsert, lookupName]
  | cons p rest ih =>
    obtain ⟨k', v'⟩ := p
    by_cases hk : k' = k
    · rw [dictInsert, if_pos hk]
      unfold lookupName
      rw [List.find?_cons_of_pos _ (by simp [hk])]
      rfl
    · rw [dictInsert, if_neg hk]
      unfold lookupName
      rw [List.find?_cons_of_neg _ (by simp [hk])]
      exact ih

theorem lookupName_dictInsert_other (d : List (String × AgentConfig)) (k : String)
    (v : AgentConfig) (k' : String) (hne : k' ≠ k) :
    lookupName (dictInsert d k v) k' = lookupName d k' := by
  induction d with
  | nil =>
    unfold lookupName dictInsert
    rw [List.find?_cons_of_neg _ (by simp; exact fun h => hne h.symm)]
  | cons p rest ih =>
    obtain ⟨a, b⟩ := p
    by_cases hk : a = k
    · rw [dictInsert, if_pos hk]
      unfold lookupName
      have ha : ¬ a = k' := fun h => hne ((h ▸ hk : k' = k))
      rw [List.find?_cons_of_neg _ (by simp [ha]), List.find?_cons_of_neg _ (by simp [ha])]
    · rw [dictInsert, if_neg hk]
      unfold lookupName
      by_cases ha : a = k'
      · rw [List.find?_cons_of_pos _ (by simp [ha]), List.find?_cons_of_pos _ (by simp [ha])]
      · rw [List.find?_cons_of_neg _ (by simp [ha]), List.find?_cons_of_neg _ (by simp [ha])]
        exact ih

theorem buildAgents_loop_nodup :
    ∀ (cfgs : List AgentConfig) (d : List (String × AgentConfig)),
      (d.map Prod.fst).Nodup →
      ((cfgs.foldl (fun d cfg => dictInsert d cfg.name cfg) d).map Prod.fst).Nodup := by
  intro cfgs
  induction cfgs with
  | nil => intro d h; exact h
  | cons c rest ih =>
    intro d h
    exact ih _ (nodup_keys_dictInsert d c.name c h)

theorem buildAgents_loop_mem :
    ∀ (cfgs : List AgentConfig) (d : List (String × AgentConfig)) (x : String),
      x ∈ (cfgs.foldl (fun d cfg => dictInsert d cfg.name cfg) d).map Prod.fst ↔
        x ∈ d.map Prod.fst ∨ x ∈ cfgs.map AgentConfig.name := by
  intro cfgs
  induction cfgs with
  | nil => intro d x; simp
  | cons c rest ih =>
    intro d x
    rw [List.foldl_cons, ih, mem_keys_dictInsert]
    simp only [List.map_cons, List.mem_cons]
    tauto

theorem buildAgents_loop_lookup :
    ∀ (cfgs : List AgentConfig) (d : List (String × AgentConfig)) (k : String),
      lookupName (cfgs.foldl (fun d cfg => dictInsert d cfg.name cfg) d) k =
        ((cfgs.filter (fun c => decide (c.name = k))).getLast?).or (lookupName d k) := by
  intro cfgs
  induction cfgs with
  | nil =>
    intro d k
    simp [Option.or]
  | cons c rest ih =>
    intro d k
    rw [List.foldl_cons, ih, List.filter_cons]
    by_cases hc : c.name = k
    · rw [if_pos (by simp [hc]), List.getLast?_cons]
      have hself : lookupName (dictInsert d c.name c) k = some c := by
        rw [← hc]
        exact lookupName_dictInsert_self d c.name c
      rw [hself]
      cases hl : (rest.filter (fun c => decide (c.name = k))).getLast? with
      | none => simp [Option.or]
      | some y => simp [Option.or]
    · rw [if_neg (by simp [hc]),
        lookupName_dictInsert_other d c.name c k (fun h => hc h.symm)]

/-! Seeding a run. -/

theorem seed_state (gen : Nat → String) (seed : String) :
    reduce_messages gen [] [{ id := none, content := seed }] =
      [{ id := some (gen 0), content := seed }] := rfl

theorem seed_good (seed : String) :
    GoodHist 1 (reduce_messages natId [] [{ id := none, content := seed }]) := by
  rw [seed_state]
  constructor
  · simp
  · intro m hm
    simp only [List.mem_singleton] at hm
    exact ⟨0, Nat.zero_lt_one, by rw [hm]⟩

/-! Claim theorems. -/

/-- Claim C1, counterexample: with an empty existing history and an
incoming batch whose two messages carry the same id, the reducer does
not append both messages as the claim prescribes for ids matching no
existing entry; it keeps a single entry, so the claimed description
of the merge result fails on this input. -/
theorem c1_counterexample :
    reduce_messages (fun _ => "z") []
        [{ id := some ("y"), content := "p" }, { id := some ("y"), content := "q" }] ≠
      mergeSpec []
        (assignIds (fun _ => "z") 0
          [{ id := some ("y"), content := "p" }, { id := some ("y"), content := "q" }]) := by
  decide

/-- Claim C1, amended: when the existing history has pairwise-distinct
ids and the incoming batch, after fresh-id assignment, also has
pairwise-distinct ids, the reducer returns exactly the claimed result:
each existing entry replaced in place by its id-matching incoming
message (order of the rest unchanged) followed by the incoming
messages matching no existing entry, in batch order. -/
theorem c1_merge_characterization (gen : Nat → String) (existing incoming : List Message)
    (h1 : (msgIds existing).Nodup)
    (h2 : (msgIds (assignIds gen 0 incoming)).Nodup) :
    reduce_messages gen existing incoming =
      mergeSpec existing (assignIds gen 0 incoming) :=
  foldl_mergeOne_spec (assignIds gen 0 incoming) existing h1 h2

/-- Claim C1, witness: the amended characterization evaluated at a
concrete history and a batch with one id-bearing and one id-less
message. -/
theorem c1_witness :
    reduce_messages (fun _ => "z") [{ id := some ("e"), content := "old" }]
        [{ id := some ("y"), content := "p" }, { id := none, content := "n" }] =
      mergeSpec [{ id := some ("e"), content := "old" }]
        (assignIds (fun _ => "z") 0
          [{ id := some ("y"), content := "p" }, { id := none, content := "n" }]) :=
  c1_merge_characterization (fun _ => "z") _ _ (by decide) (by decide)

/-- Claim C2, counterexample: three sequential agents with
`max_turns = 5` halt with 7 messages, not 5: the continuation policy
is wired only after the last agent of the round, so the run overshoots
whenever `max_turns` is not one more than a multiple of the number of
agents. -/
theorem c2_counterexample :
    (runSeq [echoTurn ("A"), echoTurn ("B"), echoTurn ("C")]
        (metaOf 5) ("start") 5).length = 7 ∧ (7 : Nat) ≠ 5 := by
  exact ⟨by decide, by decide⟩

/-- Claim C2, amended: a sequential run with one-message turns always
executes whole rounds, checking the policy only after the last agent;
it halts with exactly `1 + m * k` messages where `m` is the number of
agents and `k` is the least positive number of rounds making the
length reach `max_turns` (so exactly `N` messages only when
`N = 1 + m * k`); the concrete scenario with agents A, B, C,
`max_turns = 4` and seed "start" does end with history
start, A, B, C, the halt triggered by the check after the append of
the fourth message. -/
theorem c2_sequential_halting :
    (∀ (ts : List (List Message → Message)) (md : String → Option Nat)
        (seed : String) (fuel : Nat),
        ts ≠ [] → (∀ t ∈ ts, ∀ h', (t h').id = none) → 1 ≤ fuel →
        (md maxTurnsKey).getD 20 ≤ 1 + ts.length * fuel →
        ∃ k, 1 ≤ k ∧
          (runSeq ts md seed fuel).length = 1 + ts.length * k ∧
          (md maxTurnsKey).getD 20 ≤ 1 + ts.length * k ∧
          (k = 1 ∨ 1 + ts.length * (k - 1) < (md maxTurnsKey).getD 20)) ∧
      runSeq [echoTurn ("A"), echoTurn ("B"), echoTurn ("C")] (metaOf 4) ("start") 4 =
        [{ id := some (natId 0), content := "start" },
         { id := some (natId 1), content := "A" },
         { id := some (natId 2), content := "B" },
         { id := some (natId 3), content := "C" }] := by
  constructor
  · intro ts md seed fuel hne hall hfuel hbound
    have hlen : (reduce_messages natId [] [{ id := none, content := seed }]).length = 1 := by
      rw [seed_state natId seed]
      rfl
    obtain ⟨k, h1, h2, h3, h4⟩ :=
      runSeqLoop_spec fuel ts md 1 _ (seed_good seed) hall hne hfuel
        (by rw [hlen]; exact hbound)
    refine ⟨k, h1, ?_, ?_, ?_⟩
    · show (runSeqLoop ts md fuel 1
          (reduce_messages natId [] [{ id := none, content := seed }])).length = _
      rw [h2, hlen]
    · rw [hlen] at h3
      exact h3
    · rcases h4 with h4 | h4
      · exact Or.inl h4
      · rw [hlen] at h4
        exact Or.inr h4
  · decide

/-- Claim C2, witness: the amended round formula evaluated at the
concrete scenario of three echo agents with `max_turns = 4`. -/
theorem c2_witness :
    ∃ k, 1 ≤ k ∧
      (runSeq [echoTurn ("A"), echoTurn ("B"), echoTurn ("C")]
          (metaOf 4) ("start") 4).length =
        1 + [echoTurn ("A"), echoTurn ("B"), echoTurn ("C")].length * k ∧
      ((metaOf 4) maxTurnsKey).getD 20 ≤
        1 + [echoTurn ("A"), echoTurn ("B"), echoTurn ("C")].length * k ∧
      (k = 1 ∨ 1 + [echoTurn ("A"), echoTurn ("B"), echoTurn ("C")].length * (k - 1) <
        ((metaOf 4) maxTurnsKey).getD 20) :=
  c2_sequential_halting.1 [echoTurn ("A"), echoTurn ("B"), echoTurn ("C")]
    (metaOf 4) ("start") 4
    (by exact List.cons_ne_nil _ _)
    (by
      intro t ht h'
      simp only [List.mem_cons, List.not_mem_nil, or_false] at ht
      rcases ht with rfl | rfl | rfl
      · rfl
      · rfl
      · rfl)
    (by decide)
    (by decide)

/-- Claim C3, counterexample: in the two-agent broadcast run with
`max_turns = 2`, the claim demands a halt right after the first node's
step (history length 2); the built graph has no conditional edges, so
after four node invocations the history holds five messages and nodes
kept executing well past the bound. -/
theorem c3_counterexample :
    (runBroadcast (echoTurn ("X")) (echoTurn ("Y")) ("s") 4).length = 5 ∧
      ¬ (5 : Nat) ≤ 2 := by
  exact ⟨by decide, by decide⟩

/-- Claim C3, amended: under the broadcast topology the continuation
policy is never evaluated at all: the two-agent graph carries only the
unconditional edges X to Y and Y to X and no conditional edge, so the
run alternates between the agents and the history grows by one message
per node step regardless of `max_turns`, until the graph library's
recursion limit interrupts it. -/
theorem c3_broadcast_no_policy (x y : String) (tX tY : List Message → Message)
    (seed : String) (steps : Nat)
    (hxy : x ≠ y) (hX : ∀ h', (tX h').id = none) (hY : ∀ h', (tY h').id = none) :
    (buildGraph ("broadcast") [x, y]).condSource = none ∧
      (buildGraph ("broadcast") [x, y]).edges = [(x, y), (y, x)] ∧
      (runBroadcast tX tY seed steps).length = steps + 1 := by
  refine ⟨rfl, ?_, ?_⟩
  · show broadcastEdges [x, y] = [(x, y), (y, x)]
    have hyx : (y != x) = true := by
      simp only [bne_iff_ne, ne_eq]
      exact fun h => hxy h.symm
    have hxyb : (x != y) = true := by
      simp only [bne_iff_ne, ne_eq]
      exact hxy
    simp [broadcastEdges, hyx, hxyb]
  · show (runB2 tX tY steps 1
        (reduce_messages natId [] [{ id := none, content := seed }])).length = steps + 1
    rw [runB2_length steps tX tY 1 _ (seed_good seed) hX hY, seed_state natId seed]
    simp
    omega

/-- Claim C3, witness: the amended statement evaluated on two concrete
echo agents for six node steps. -/
theorem c3_witness :
    (buildGraph ("broadcast") ["X", "Y"]).condSource = none ∧
      (buildGraph ("broadcast") ["X", "Y"]).edges = [("X", "Y"), ("Y", "X")] ∧
      (runBroadcast (echoTurn ("X")) (echoTurn ("Y")) ("s") 6).length = 6 + 1 :=
  c3_broadcast_no_policy ("X") ("Y") (echoTurn ("X")) (echoTurn ("Y")) ("s") 6
    (by decide) (fun _ => rfl) (fun _ => rfl)

/-- Claim C4, counterexample: constructing a workflow from two
configurations sharing the name "a" does not fail at all; the
constructor silently collapses them into a one-entry agent table
keeping the last configuration, so no ConfigurationError is raised. -/
theorem c4_counterexample :
    buildAgents
        [{ name := "a", role := AgentRole.executor, system_message := "s1", model := "m" },
         { name := "a", role := AgentRole.critic, system_message := "s2", model := "m" }] =
      [("a", { name := "a", role := AgentRole.critic, system_message := "s2",
               model := "m" })] := by
  decide

/-- Claim C4, amended: workflow construction performs no validation
and cannot raise a configuration error: the agent table always builds,
with pairwise-distinct keys, one key per configured name, each mapped
to the last configuration carrying that name; and for a topology
identifier that is neither sequential nor broadcast the graph builder
silently adds no nodes and no edges (failures, if any, arise later
inside the graph library, not at construction). -/
theorem c4_no_construction_validation (cfgs : List AgentConfig) (pattern : String)
    (names : List String) (k : String)
    (hp1 : pattern ≠ "sequential") (hp2 : pattern ≠ "broadcast") :
    ((buildAgents cfgs).map Prod.fst).Nodup ∧
      (k ∈ (buildAgents cfgs).map Prod.fst ↔ k ∈ cfgs.map AgentConfig.name) ∧
      lookupName (buildAgents cfgs) k =
        (cfgs.filter (fun c => decide (c.name = k))).getLast? ∧
      (buildGraph pattern names).nodes = [] ∧
      (buildGraph pattern names).edges = [] := by
  refine ⟨?_, ?_, ?_, ?_, ?_⟩
  · exact buildAgents_loop_nodup cfgs [] (by simp)
  · have := buildAgents_loop_mem cfgs [] k
    simpa using this
  · have hor := buildAgents_loop_lookup cfgs [] k
    have hnone : lookupName [] k = none := rfl
    rw [hnone] at hor
    show lookupName (List.foldl (fun d cfg => dictInsert d cfg.name cfg) [] cfgs) k = _
    rw [hor]
    cases (cfgs.filter (fun c => decide (c.name = k))).getLast? with
    | none => rfl
    | some y => rfl
  · unfold buildGraph
    rw [if_neg hp1, if_neg hp2]
  · unfold buildGraph
    rw [if_neg hp1, if_neg hp2]

/-- Claim C4, witness: the amended statement at two configurations
sharing one name and an unknown topology identifier. -/
theorem c4_witness :
    ((buildAgents
        [{ name := "a", role := AgentRole.executor, system_message := "s1", model := "m" },
         { name := "a", role := AgentRole.critic, system_message := "s2",
           model := "m" }]).map Prod.fst).Nodup ∧
      ("a" ∈ (buildAgents
          [{ name := "a", role := AgentRole.executor, system_message := "s1", model := "m" },
           { name := "a", role := AgentRole.critic, system_message := "s2",
             model := "m" }]).map Prod.fst ↔
        "a" ∈ ([{ name := "a", role := AgentRole.executor, system_message := "s1",
                  model := "m" },
                { name := "a", role := AgentRole.critic, system_message := "s2",
                  model := "m" }] : List AgentConfig).map AgentConfig.name) ∧
      lookupName (buildAgents
          [{ name := "a", role := AgentRole.executor, system_message := "s1", model := "m" },
           { name := "a", role := AgentRole.critic, system_message := "s2",
             model := "m" }]) "a" =
        (([{ name := "a", role := AgentRole.executor, system_message := "s1", model := "m" },
           { name := "a", role := AgentRole.critic, system_message := "s2",
             model := "m" }] : List AgentConfig).filter
          (fun c => decide (c.name = "a"))).getLast? ∧
      (buildGraph ("ring") ["A", "B"]).nodes = [] ∧
      (buildGraph ("ring") ["A", "B"]).edges = [] :=
  c4_no_construction_validation
    [{ name := "a", role := AgentRole.executor, system_message := "s1", model := "m" },
     { name := "a", role := AgentRole.critic, system_message := "s2", model := "m" }]
    ("ring") ["A", "B"] ("a") (by decide) (by decide)

/-- Claim C5, counterexample: the reducer does not fail on an existing
history that already holds two entries with the same id; it returns
normally, replacing only the first occurrence, so the claimed
InvariantViolation failure mode does not exist in the code. -/
theorem c5_counterexample :
    reduce_messages (fun _ => "z")
        [{ id := some ("x"), content := "a" }, { id := some ("x"), content := "b" }]
        [{ id := some ("x"), content := "c" }] =
      [{ id := some ("x"), content := "c" }, { id := some ("x"), content := "b" }] := by
  decide

/-- Claim C5, amended: the merge reducer is a total function with no
failure mode on any input; when the existing history contains an entry
matching an incoming message's id, only the first occurrence is
replaced, whatever duplicates the rest of the history holds. -/
theorem c5_merge_total_first_occurrence (gen : Nat → String) (pre post : List Message)
    (e m : Message) (h1 : hasId m = true) (h2 : e.id = m.id) (h3 : m.id ∉ msgIds pre) :
    reduce_messages gen (pre ++ e :: post) [m] = pre ++ m :: post := by
  show (assignIds gen 0 [m]).foldl mergeOne (pre ++ e :: post) = _
  rw [assignIds_of_hasId gen [m] 0 (by
    intro x hx
    simp only [List.mem_singleton] at hx
    rw [hx]
    exact h1)]
  rw [List.foldl_cons, List.foldl_nil]
  exact mergeOne_first_occurrence e m h2 pre post h3

/-- Claim C5, witness: the amended first-occurrence statement at an
existing history with a duplicated id. -/
theorem c5_witness :
    reduce_messages (fun _ => "z")
        ([] ++ { id := some ("x"), content := "a" } ::
          [{ id := some ("x"), content := "b" }])
        [{ id := some ("x"), content := "c" }] =
      [] ++ { id := some ("x"), content := "c" } ::
        [{ id := some ("x"), content := "b" }] :=
  c5_merge_total_first_occurrence (fun _ => "z") [] [{ id := some ("x"), content := "b" }]
    { id := some ("x"), content := "a" } { id := some ("x"), content := "c" }
    (by decide) (by decide) (by decide)

/-- Claim C6, confirmed: every reachable shared state of a run — the
seeded state and every state produced by a node step folded through
the reducer — has pairwise-distinct message ids, whatever ids the
uuid supply happens to produce. -/
theorem c6_reachable_id_unique (s : List Message) (h : Reachable s) :
    (msgIds s).Nodup := by
  induction h with
  | seed gen content =>
    exact nodup_foldl_mergeOne _ [] (by simp)
  | step gen turn s' hs ih =>
    exact nodup_foldl_mergeOne _ s' ih

/-- Claim C6, witness: the seeded state of a concrete run has distinct
ids. -/
theorem c6_witness :
    (msgIds (reduce_messages (fun _ => "u") [] [{ id := none, content := "hi" }])).Nodup :=
  c6_reachable_id_unique _ (Reachable.seed (fun _ => "u") ("hi"))

/-- Claim C7, counterexample: idempotence fails for a history whose
entries carry stable but duplicated ids: re-merging the merge of the
empty batch into such a history rewrites both duplicate slots with the
second entry, so the claim is false without the history invariant of
pairwise-distinct ids. -/
theorem c7_counterexample :
    reduce_messages (fun _ => "w")
        [{ id := some ("x"), content := "a" }, { id := some ("x"), content := "b" }]
        (reduce_messages (fun _ => "v")
          [{ id := some ("x"), content := "a" }, { id := some ("x"), content := "b" }] []) ≠
      reduce_messages (fun _ => "v")
        [{ id := some ("x"), content := "a" }, { id := some ("x"), content := "b" }] [] := by
  decide

/-- Claim C7, amended: merging is idempotent provided the history
carries its invariants — every entry has a nonempty id and the ids are
pairwise distinct — and every message of the batch already carries a
stable id: re-merging the merged result into the history changes
nothing, for any two uuid supplies. -/
theorem c7_merge_idempotent (g1 g2 : Nat → String) (H M : List Message)
    (hH1 : (msgIds H).Nodup) (hH2 : ∀ m ∈ H, hasId m = true)
    (hM : ∀ m ∈ M, hasId m = true) :
    reduce_messages g2 H (reduce_messages g1 H M) = reduce_messages g1 H M :=
  reduce_messages_idem g1 g2 H M hH1 hH2 hM

/-- Claim C7, witness: idempotence at a concrete one-entry history and
a one-message batch with a fresh stable id. -/
theorem c7_witness :
    reduce_messages (fun _ => "w") [{ id := some ("h"), content := "seed" }]
        (reduce_messages (fun _ => "v") [{ id := some ("h"), content := "seed" }]
          [{ id := some ("n"), content := "new" }]) =
      reduce_messages (fun _ => "v") [{ id := some ("h"), content := "seed" }]
        [{ id := some ("n"), content := "new" }] :=
  c7_merge_idempotent (fun _ => "w") (fun _ => "v")
    [{ id := some ("h"), content := "seed" }] [{ id := some ("n"), content := "new" }]
    (by decide) (by decide) (by decide)

/-- Claim C8, counterexample: the implemented single-agent policy
ignores message contents entirely: on a short history whose only
message reads DONE it still answers continue, while the policy the
claim describes, with DONE configured as completion marker, answers
stop. -/
theorem c8_counterexample :
    singleShouldContinue (fun _ => none) [{ id := some ("a"), content := "DONE" }] = true ∧
      specShouldContinue ["DONE"] 10 (fun _ => none)
        [{ id := some ("a"), content := "DONE" }] = false := by
  exact ⟨by decide, by decide⟩

/-- Claim C8, amended: both default continuation policies return true
exactly when the history length is strictly below the `max_turns`
metadata entry — defaulting to 10 for a single agent and 20 for the
multi-agent workflow — and no completion-marker check exists: the
answer is invariant under any rewriting of message contents. -/
theorem c8_default_policy (md : String → Option Nat) (msgs : List Message)
    (f : String → String) :
    (singleShouldContinue md msgs = true ↔ msgs.length < (md maxTurnsKey).getD 10) ∧
      (multiShouldContinue md msgs = true ↔ msgs.length < (md maxTurnsKey).getD 20) ∧
      singleShouldContinue md (msgs.map (fun m => { m with content := f m.content })) =
        singleShouldContinue md msgs ∧
      multiShouldContinue md (msgs.map (fun m => { m with content := f m.content })) =
        multiShouldContinue md msgs := by
  refine ⟨by simp [singleShouldContinue], by simp [multiShouldContinue], ?_, ?_⟩
  · simp [singleShouldContinue]
  · simp [multiShouldContinue]

/-- Claim C9, counterexample: one process call on a one-message state
leaves the caller's state object holding two messages: the input is
mutated in place (the returned dict is the very same object), so the
claim that the caller's input state is left unmodified is false. -/
theorem c9_counterexample :
    (SingleAgent.process (fun _ => { id := none, content := "r" })
        { messages := [{ id := some ("a"), content := "s" }],
          metadata := fun _ => none }).inputAfter.messages ≠
      [{ id := some ("a"), content := "s" }] := by
  decide

/-- Claim C9, amended: a process call returns the state whose history
is the input history with the turn response appended and whose
metadata is unchanged, and once the framework folds that return
through the reducer the effective history equals the merge of the
input history with the response alone; but the call mutates the
caller's state in place — the state object after the call is the
returned object, not the unmodified input. -/
theorem c9_process_frame (turn : List Message → Message) (s : AgentState)
    (gen : Nat → String)
    (h1 : (msgIds s.messages).Nodup) (h2 : ∀ m ∈ s.messages, hasId m = true) :
    (SingleAgent.process turn s).returned.messages = s.messages ++ [turn s.messages] ∧
      (SingleAgent.process turn s).returned.metadata = s.metadata ∧
      (SingleAgent.process turn s).inputAfter = (SingleAgent.process turn s).returned ∧
      reduce_messages gen s.messages ((SingleAgent.process turn s).returned.messages) =
        reduce_messages gen s.messages [turn s.messages] := by
  refine ⟨rfl, rfl, rfl, ?_⟩
  exact reduce_messages_left_append gen s.messages [turn s.messages] h1 h2

/-- Claim C9, witness: the amended statement at a concrete one-message
state and a constant turn capability. -/
theorem c9_witness :
    (SingleAgent.process (fun _ => { id := none, content := "r" })
        { messages := [{ id := some ("a"), content := "s" }],
          metadata := fun _ => none }).returned.messages =
      ({ messages := [{ id := some ("a"), content := "s" }],
         metadata := fun _ => none } : AgentState).messages ++
        [(fun _ => { id := none, content := "r" })
          ({ messages := [{ id := some ("a"), content := "s" }],
             metadata := fun _ => none } : AgentState).messages] ∧
      (SingleAgent.process (fun _ => { id := none, content := "r" })
          { messages := [{ id := some ("a"), content := "s" }],
            metadata := fun _ => none }).returned.metadata =
        ({ messages := [{ id := some ("a"), content := "s" }],
           metadata := fun _ => none } : AgentState).metadata ∧
      (SingleAgent.process (fun _ => { id := none, content := "r" })
          { messages := [{ id := some ("a"), content := "s" }],
            metadata := fun _ => none }).inputAfter =
        (SingleAgent.process (fun _ => { id := none, content := "r" })
          { messages := [{ id := some ("a"), content := "s" }],
            metadata := fun _ => none }).returned ∧
      reduce_messages (fun _ => "z")
        ({ messages := [{ id := some ("a"), content := "s" }],
           metadata := fun _ => none } : AgentState).messages
        ((SingleAgent.process (fun _ => { id := none, content := "r" })
          { messages := [{ id := some ("a"), content := "s" }],
            metadata := fun _ => none }).returned.messages) =
      reduce_messages (fun _ => "z")
        ({ messages := [{ id := some ("a"), content := "s" }],
           metadata := fun _ => none } : AgentState).messages
        [(fun _ => { id := none, content := "r" })
          ({ messages := [{ id := some ("a"), content := "s" }],
             metadata := fun _ => none } : AgentState).messages] :=
  c9_process_frame (fun _ => { id := none, content := "r" })
    { messages := [{ id := some ("a"), content := "s" }], metadata := fun _ => none }
    (fun _ => "z") (by decide) (by decide)

/-- Claim C10, confirmed: when the incoming batch contains several
messages carrying the same id, the merge result still has
pairwise-distinct ids provided the existing history does, and exactly
one entry of the result carries that id — its value the last
occurrence in the batch. -/
theorem c10_duplicate_incoming_last_wins (gen : Nat → String)
    (existing incoming : List Message) (i : String) (m : Message)
    (hnd : (msgIds existing).Nodup)
    (hall : ∀ x ∈ incoming, hasId x = true)
    (hlast : (incoming.filter (fun x => decide (x.id = some i))).getLast? = some m) :
    (msgIds (reduce_messages gen existing incoming)).Nodup ∧
      (reduce_messages gen existing incoming).filter
          (fun x => decide (x.id = some i)) = [m] := by
  have hfold : reduce_messages gen existing incoming =
      List.foldl mergeOne existing incoming := by
    show (assignIds gen 0 incoming).foldl mergeOne existing = _
    rw [assignIds_of_hasId gen incoming 0 hall]
  constructor
  · rw [hfold]
    exact nodup_foldl_mergeOne incoming existing hnd
  · rw [hfold]
    exact foldl_mergeOne_last_wins i m incoming existing hnd hlast

/-- Claim C10, witness: a batch carrying the id y twice merged into a
disjoint one-entry history: the result has distinct ids and its single
y entry is the second occurrence. -/
theorem c10_witness :
    (msgIds (reduce_messages (fun _ => "z") [{ id := some ("e"), content := "old" }]
        [{ id := some ("y"), content := "p" },
         { id := some ("y"), content := "q" }])).Nodup ∧
      (reduce_messages (fun _ => "z") [{ id := some ("e"), content := "old" }]
          [{ id := some ("y"), content := "p" },
           { id := some ("y"), content := "q" }]).filter
          (fun x => decide (x.id = some ("y"))) =
        [{ id := some ("y"), content := "q" }] :=
  c10_duplicate_incoming_last_wins (fun _ => "z")
    [{ id := some ("e"), content := "old" }]
    [{ id := some ("y"), content := "p" }, { id := some ("y"), content := "q" }]
    ("y") { id := some ("y"), content := "q" }
    (by decide) (by decide) (by decide)
